import Mathlib

/-!
# Verification of the blog-manager collection (`src/script.js`)

This file gives a shallow embedding of the data model and the collection
manager of the repository's `script.js`, and proves the specified properties
about it.

* `Blog` embeds the JS `Blog` class.  JS `Date` values are embedded as `Nat`
  milliseconds since the Unix epoch (the internal time value of a JS `Date`;
  the program only ever manufactures dates from `Date.now()` and from
  reparsing its own serialized output, so the epoch-onward range suffices).
* `BlogManager` embeds the JS `BlogManager` class together with the
  `localStorage` slot under the fixed key `"blogs"` that it reads and writes.
  The store holds the parsed shape of the JSON document that
  `JSON.stringify(this.blogs)` produces: a list of records whose date fields
  are the ISO-8601 strings produced by `Date.prototype.toJSON`
  (`toISOString`).  The JSON text encoding itself is an injective external
  encoding and is not modelled further.
* The `Date` ↔ ISO-string conversion performed by the platform
  (`toISOString` on write, `new Date(string)` on read) is modelled from the
  spec ("timestamps in a round-trippable textual form", "ISO-parseable
  strings") by `isoOfMs` / `parseIso` below, implementing the proleptic
  Gregorian calendar on the epoch-onward range up to year 9999 (beyond which
  `toISOString` switches to the expanded-year format, never reached by this
  program's own data).

Mutating calls are parameterised by `now : Nat`, the current clock value in
milliseconds, standing for the `Date.now()` / `new Date()` calls they make.
-/

/-! ## Gregorian calendar arithmetic

`civilYear z / civilMonth z / civilDay z` convert `z` = days since 1970-01-01
to a calendar date; `daysFromCivil` is the inverse.  The decomposition works
era by era (400 years = 146097 days), then century, 4-year block and year
inside the era, counting years from March 1 so that the leap day comes last.
-/

/-- Century index (0–3) of a day inside a 400-year era; the fourth century is
one day longer, hence the correction at `d = 146096`. -/
def n100Of (d : Nat) : Nat := if d / 36524 = 4 then 3 else d / 36524

/-- Remaining days after removing whole centuries. -/
def r100Of (d : Nat) : Nat := d - 36524 * n100Of d

/-- 4-year-block index (0–24) inside the century. -/
def n4Of (d : Nat) : Nat := r100Of d / 1461

/-- Remaining days after removing whole 4-year blocks. -/
def r4Of (d : Nat) : Nat := r100Of d - 1461 * n4Of d

/-- Year index (0–3) inside the 4-year block; the fourth year is one day
longer, hence the correction at `r4Of d = 1460`. -/
def n1Of (d : Nat) : Nat := if r4Of d / 365 = 4 then 3 else r4Of d / 365

/-- Day of the (March-based) year, 0–365. -/
def doyOfDoe (d : Nat) : Nat := r4Of d - 365 * n1Of d

/-- Year of the era, 0–399. -/
def yoeOfDoe (d : Nat) : Nat := 100 * n100Of d + 4 * n4Of d + n1Of d

/-- Day of the era containing day `z` (era time starts 0000-03-01, which is
719468 days before the Unix epoch). -/
def doeOf (z : Nat) : Nat := (z + 719468) % 146097

/-- Era (400-year cycle) index of day `z`. -/
def eraOf (z : Nat) : Nat := (z + 719468) / 146097

/-- March-based month index 0–11 (0 = March, ..., 11 = February). -/
def mpOf (z : Nat) : Nat := (5 * doyOfDoe (doeOf z) + 2) / 153

/-- Civil day of month (1–31) of day `z`. -/
def civilDay (z : Nat) : Nat := doyOfDoe (doeOf z) - (153 * mpOf z + 2) / 5 + 1

/-- Civil month (1–12) of day `z`. -/
def civilMonth (z : Nat) : Nat := if mpOf z < 10 then mpOf z + 3 else mpOf z - 9

/-- Civil year of day `z` (January and February belong to the next
March-based year). -/
def civilYear (z : Nat) : Nat :=
  eraOf z * 400 + yoeOfDoe (doeOf z) + (if civilMonth z ≤ 2 then 1 else 0)

/-- Days since 1970-01-01 of the civil date `y-m-d` (defined for dates from
the epoch on, which is all this development ever feeds it). -/
def daysFromCivil (y m d : Nat) : Nat :=
  let y2 := if m ≤ 2 then y - 1 else y
  let era := y2 / 400
  let yoe := y2 % 400
  let mp := (m + 9) % 12
  let doy := (153 * mp + 2) / 5 + d - 1
  let doe := 365 * yoe + yoe / 4 - yoe / 100 + doy
  era * 146097 + doe - 719468

theorem ladder_char (d : Nat) (h : d < 146097) :
    36524 * n100Of d + 1461 * n4Of d + 365 * n1Of d + doyOfDoe d = d ∧
    n100Of d ≤ 3 ∧ n4Of d ≤ 24 ∧ n1Of d ≤ 3 ∧ doyOfDoe d ≤ 365 := by
  simp only [doyOfDoe, n1Of, r4Of, n4Of, r100Of, n100Of]
  split_ifs <;> omega

theorem yoe_div (a b c : Nat) (ha : a ≤ 3) (hb : b ≤ 24) (hc : c ≤ 3) :
    (100 * a + 4 * b + c) / 4 = 25 * a + b ∧ (100 * a + 4 * b + c) / 100 = a ∧
    (100 * a + 4 * b + c) % 400 = 100 * a + 4 * b + c ∧
    (100 * a + 4 * b + c) / 400 = 0 := by
  omega

theorem mp_char (doy : Nat) (h : doy ≤ 365) :
    let mp := (5 * doy + 2) / 153
    mp ≤ 11 ∧ (153 * mp + 2) / 5 ≤ doy ∧ doy - (153 * mp + 2) / 5 + 1 ≤ 31 ∧
    (153 * mp + 2) / 5 + (doy - (153 * mp + 2) / 5 + 1) - 1 = doy := by
  intro mp
  omega

set_option maxHeartbeats 1000000 in
theorem civil_roundtrip (z : Nat) :
    daysFromCivil (civilYear z) (civilMonth z) (civilDay z) = z := by
  have hdoe : doeOf z < 146097 := Nat.mod_lt _ (by omega)
  obtain ⟨hsum, h100, h4, h1, hdoy⟩ := ladder_char (doeOf z) hdoe
  have herad : eraOf z * 146097 + doeOf z = z + 719468 := by
    simp only [eraOf, doeOf]; omega
  obtain ⟨hq4, hq100, hmod400, hdiv400⟩ :=
    yoe_div (n100Of (doeOf z)) (n4Of (doeOf z)) (n1Of (doeOf z)) h100 h4 h1
  obtain ⟨hmp, hle, hday, hrt⟩ := mp_char (doyOfDoe (doeOf z)) hdoy
  simp only [daysFromCivil, civilYear, civilMonth, civilDay, mpOf, yoeOfDoe] at *
  set a := n100Of (doeOf z) with ha
  set b := n4Of (doeOf z) with hb
  set c := n1Of (doeOf z) with hc
  set doy := doyOfDoe (doeOf z) with hdy
  set era := eraOf z with he
  by_cases hlt : (5 * doy + 2) / 153 < 10
  · rw [if_pos hlt]
    have hm2 : ¬ ((5 * doy + 2) / 153 + 3 ≤ 2) := by omega
    rw [if_neg hm2, if_neg hm2]
    rw [show ((5 * doy + 2) / 153 + 3 + 9) % 12 = (5 * doy + 2) / 153 by omega]
    rw [show era * 400 + (100 * a + 4 * b + c) + 0 = era * 400 + (100 * a + 4 * b + c) by omega]
    rw [show (era * 400 + (100 * a + 4 * b + c)) / 400 = era by omega]
    rw [show (era * 400 + (100 * a + 4 * b + c)) % 400 = 100 * a + 4 * b + c by omega]
    rw [hq4, hq100]
    omega
  · rw [if_neg hlt]
    have hm2 : (5 * doy + 2) / 153 - 9 ≤ 2 := by omega
    rw [if_pos hm2, if_pos hm2]
    rw [show ((5 * doy + 2) / 153 - 9 + 9) % 12 = (5 * doy + 2) / 153 by omega]
    rw [show era * 400 + (100 * a + 4 * b + c) + 1 - 1 = era * 400 + (100 * a + 4 * b + c) by omega]
    rw [show (era * 400 + (100 * a + 4 * b + c)) / 400 = era by omega]
    rw [show (era * 400 + (100 * a + 4 * b + c)) % 400 = 100 * a + 4 * b + c by omega]
    rw [hq4, hq100]
    omega

theorem civil_bounds (z : Nat) :
    1 ≤ civilMonth z ∧ civilMonth z ≤ 12 ∧ 1 ≤ civilDay z ∧ civilDay z ≤ 31 ∧
    (z ≤ 2932896 → civilYear z ≤ 9999) := by
  have hdoe : doeOf z < 146097 := Nat.mod_lt _ (by omega)
  obtain ⟨hsum, h100, h4, h1, hdoy⟩ := ladder_char (doeOf z) hdoe
  have herad : eraOf z * 146097 + doeOf z = z + 719468 := by
    simp only [eraOf, doeOf]; omega
  obtain ⟨hmp, hle, hday, hrt⟩ := mp_char (doyOfDoe (doeOf z)) hdoy
  simp only [civilYear, civilMonth, civilDay, mpOf, yoeOfDoe] at *
  split_ifs at * <;> omega

/-! ## ISO-8601 strings (`Date.prototype.toISOString` / `new Date(string)`) -/

/-- The decimal digit character for `n < 10`. -/
def digitChar (n : Nat) : Char := Char.ofNat (48 + n)

/-- The value of a decimal digit character, `none` on non-digits. -/
def digit? (c : Char) : Option Nat :=
  if '0' ≤ c ∧ c ≤ '9' then some (c.toNat - 48) else none

def pad2 (n : Nat) : List Char := [digitChar (n / 10 % 10), digitChar (n % 10)]

def pad3 (n : Nat) : List Char :=
  [digitChar (n / 100 % 10), digitChar (n / 10 % 10), digitChar (n % 10)]

def pad4 (n : Nat) : List Char :=
  [digitChar (n / 1000 % 10), digitChar (n / 100 % 10), digitChar (n / 10 % 10), digitChar (n % 10)]

/-- The 24 characters `YYYY-MM-DDTHH:MM:SS.mmmZ`. -/
def isoChars (y mo d h mi s f : Nat) : List Char :=
  pad4 y ++ '-' :: (pad2 mo ++ '-' :: (pad2 d ++ 'T' :: (pad2 h ++ ':' ::
    (pad2 mi ++ ':' :: (pad2 s ++ '.' :: (pad3 f ++ ['Z']))))))

/-- Modelled from the spec: the platform serialization of a `Date` used by
`JSON.stringify` (via `Date.prototype.toJSON` = `toISOString`), which is not
part of `src/`.  Produces the UTC ISO-8601 form `YYYY-MM-DDTHH:MM:SS.mmmZ`
with millisecond precision. -/
def isoOfMs (ms : Nat) : String :=
  String.mk (isoChars (civilYear (ms / 86400000)) (civilMonth (ms / 86400000))
    (civilDay (ms / 86400000)) (ms / 3600000 % 24) (ms / 60000 % 60) (ms / 1000 % 60) (ms % 1000))

/-- Parser for the fixed 24-character UTC ISO-8601 date-time format. -/
def parseIsoChars : List Char → Option Nat
  | [y1, y2, y3, y4, a1, m1, m2, a2, d1, d2, a3, h1, h2, a4, i1, i2, a5, s1, s2, a6, f1, f2, f3, a7] =>
    if a1 = '-' ∧ a2 = '-' ∧ a3 = 'T' ∧ a4 = ':' ∧ a5 = ':' ∧ a6 = '.' ∧ a7 = 'Z' then
      match digit? y1, digit? y2, digit? y3, digit? y4, digit? m1, digit? m2, digit? d1, digit? d2,
            digit? h1, digit? h2, digit? i1, digit? i2, digit? s1, digit? s2,
            digit? f1, digit? f2, digit? f3 with
      | some b1, some b2, some b3, some b4, some c1, some c2, some e1, some e2,
        some g1, some g2, some j1, some j2, some k1, some k2, some l1, some l2, some l3 =>
        let y := b1 * 1000 + b2 * 100 + b3 * 10 + b4
        let mo := c1 * 10 + c2
        let d := e1 * 10 + e2
        let h := g1 * 10 + g2
        let mi := j1 * 10 + j2
        let s := k1 * 10 + k2
        let f := l1 * 100 + l2 * 10 + l3
        if 1 ≤ mo ∧ mo ≤ 12 ∧ 1 ≤ d ∧ d ≤ 31 ∧ h ≤ 23 ∧ mi ≤ 59 ∧ s ≤ 59 then
          some (daysFromCivil y mo d * 86400000 + h * 3600000 + mi * 60000 + s * 1000 + f)
        else none
      | _, _, _, _, _, _, _, _, _, _, _, _, _, _, _, _, _ => none
    else none
  | _ => none

/-- Modelled from the spec: the platform `new Date(string)` parse of the
date-time string format, which is not part of `src/`.  Yields the time value
in milliseconds, `none` where JS would yield an invalid date. -/
def parseIso (s : String) : Option Nat := parseIsoChars s.data

/-- `new Date(s)` as a total function on the model's time domain; strings
that JS would turn into an invalid date are collapsed to time 0 (this
development only ever parses its own valid output). -/
def parseDate (s : String) : Nat := (parseIso s).getD 0

/-- First millisecond of year 10000 — above it `toISOString` leaves the
`YYYY` format.  `Date.now()` values are far below. -/
def msLimit : Nat := 253402300800000

theorem digit_digitChar (n : Nat) : digit? (digitChar (n % 10)) = some (n % 10) := by
  have h : n % 10 < 10 := Nat.mod_lt _ (by omega)
  set k := n % 10 with hk
  interval_cases k <;> decide

set_option maxHeartbeats 1000000 in
/-- Serializing a time value to its ISO string and reparsing recovers it
exactly (full millisecond precision). -/
theorem parseIso_isoOfMs (ms : Nat) (h : ms < msLimit) : parseIso (isoOfMs ms) = some ms := by
  rw [msLimit] at h
  have hz : ms / 86400000 ≤ 2932896 := by omega
  obtain ⟨hmo1, hmo2, hd1, hd2, hy⟩ := civil_bounds (ms / 86400000)
  have hy9999 := hy hz
  show parseIsoChars (isoChars _ _ _ _ _ _ _) = some ms
  simp only [isoChars, pad4, pad3, pad2, List.cons_append, List.nil_append]
  simp only [parseIsoChars, digit_digitChar]
  rw [show civilYear (ms / 86400000) / 1000 % 10 * 1000 + civilYear (ms / 86400000) / 100 % 10 * 100 +
        civilYear (ms / 86400000) / 10 % 10 * 10 + civilYear (ms / 86400000) % 10
      = civilYear (ms / 86400000) by omega]
  rw [show civilMonth (ms / 86400000) / 10 % 10 * 10 + civilMonth (ms / 86400000) % 10
      = civilMonth (ms / 86400000) by omega]
  rw [show civilDay (ms / 86400000) / 10 % 10 * 10 + civilDay (ms / 86400000) % 10
      = civilDay (ms / 86400000) by omega]
  rw [show ms / 3600000 % 24 / 10 % 10 * 10 + ms / 3600000 % 24 % 10 = ms / 3600000 % 24 by omega]
  rw [show ms / 60000 % 60 / 10 % 10 * 10 + ms / 60000 % 60 % 10 = ms / 60000 % 60 by omega]
  rw [show ms / 1000 % 60 / 10 % 10 * 10 + ms / 1000 % 60 % 10 = ms / 1000 % 60 by omega]
  rw [show ms % 1000 / 100 % 10 * 100 + ms % 1000 / 10 % 10 * 10 + ms % 1000 % 10 = ms % 1000 by omega]
  simp only [and_self, if_true]
  rw [if_pos (by omega)]
  rw [civil_roundtrip]
  congr 1
  omega

theorem iso_epoch : isoOfMs 0 = "1970-01-01T00:00:00.000Z" := by decide

theorem iso_leap2000 : isoOfMs 951782400000 = "2000-02-29T00:00:00.000Z" := by decide

theorem iso_nov2023 : isoOfMs 1700000000000 = "2023-11-14T22:13:20.000Z" := by decide

theorem iso_jan2100 : isoOfMs 4102444800000 = "2100-01-01T00:00:00.000Z" := by decide

theorem iso_max : isoOfMs 253402300799999 = "9999-12-31T23:59:59.999Z" := by decide

/-! ## The data model (`class Blog`) -/

/-- One blog entry; embeds the JS `Blog` class.  `createdDate` and
`updatedDate` are `Date` time values in milliseconds since the epoch. -/
structure Blog where
  id : Nat
  title : String
  content : String
  tags : List String
  createdDate : Nat
  updatedDate : Nat
deriving DecidableEq, Repr

/-- `Blog` constructor: `new Blog(id, title, content, tags)` at clock value
`now` (both `new Date()` calls happen at construction time). -/
def Blog.make (now id : Nat) (title content : String) (tags : List String) : Blog :=
  { id := id, title := title, content := content, tags := tags,
    createdDate := now, updatedDate := now }

/-- `Blog.prototype.update(title, content, tags)` at clock value `now`. -/
def Blog.update (b : Blog) (now : Nat) (title content : String) (tags : List String) : Blog :=
  { b with title := title, content := content, tags := tags, updatedDate := now }

/-! ## The collection manager (`class BlogManager`) -/

/-- One record of the JSON document `JSON.stringify(this.blogs)` stored under
the `"blogs"` key: the `Blog`'s own enumerable fields, with each `Date`
serialized to its ISO string by `Date.prototype.toJSON`. -/
structure StoredBlog where
  id : Nat
  title : String
  content : String
  tags : List String
  createdDate : String
  updatedDate : String
deriving DecidableEq, Repr

/-- `JSON.stringify` image of one `Blog`. -/
def persistBlog (b : Blog) : StoredBlog :=
  { id := b.id, title := b.title, content := b.content, tags := b.tags,
    createdDate := isoOfMs b.createdDate, updatedDate := isoOfMs b.updatedDate }

/-- One step of `loadFromLocalStorage`'s `map`: `new Blog(...)` followed by
overwriting `createdDate` / `updatedDate` with `new Date(stored)`. -/
def restoreBlog (sb : StoredBlog) : Blog :=
  { id := sb.id, title := sb.title, content := sb.content, tags := sb.tags,
    createdDate := parseDate sb.createdDate, updatedDate := parseDate sb.updatedDate }

/-- The manager state: the in-memory `this.blogs` array plus the
`localStorage` slot under the fixed key `"blogs"` (`none` = key absent). -/
structure BlogManager where
  blogs : List Blog
  store : Option (List StoredBlog)
deriving DecidableEq, Repr

namespace BlogManager

/-- `sortBlogs()`: `this.blogs.sort((a, b) => b.updatedDate - a.updatedDate)`.
JS `Array.prototype.sort` is a stable sort; the comparator orders by
`updatedDate` descending, i.e. `a` may stay before `b` iff
`b.updatedDate ≤ a.updatedDate`. -/
def sortBlogs (blogs : List Blog) : List Blog :=
  blogs.mergeSort (fun a b => decide (b.updatedDate ≤ a.updatedDate))

/-- `saveToLocalStorage()`: overwrite the `"blogs"` key with the serialized
array. -/
def saveToLocalStorage (m : BlogManager) : BlogManager :=
  { m with store := some (m.blogs.map persistBlog) }

/-- `loadFromLocalStorage()`: the blog list read back from the store (the
empty list when the key is absent). -/
def loadFromLocalStorage (store : Option (List StoredBlog)) : List Blog :=
  match store with
  | some l => l.map restoreBlog
  | none => []

/-- `new BlogManager()` against a given `localStorage` content. -/
def init (store : Option (List StoredBlog)) : BlogManager :=
  { blogs := loadFromLocalStorage store, store := store }

/-- `getBlog(id)`: `this.blogs.find((blog) => blog.id === id)`. -/
def getBlog (m : BlogManager) (id : Nat) : Option Blog :=
  m.blogs.find? (fun b => b.id == id)

/-- `addBlog(title, content, tags)` at clock value `now`
(`new Blog(Date.now(), ...)`, push, sort, save; returns the new blog). -/
def addBlog (m : BlogManager) (now : Nat) (title content : String) (tags : List String) :
    Blog × BlogManager :=
  let blog := Blog.make now now title content tags
  let m2 := { m with blogs := sortBlogs (m.blogs ++ [blog]) }
  (blog, m2.saveToLocalStorage)

/-- In-place `blog.update(...)` on the first array element `find` returns
(JS object mutation through the reference `getBlog` yields). -/
def updateFirst (blogs : List Blog) (id now : Nat) (title content : String)
    (tags : List String) : List Blog :=
  match blogs with
  | [] => []
  | b :: rest =>
    if b.id == id then b.update now title content tags :: rest
    else b :: updateFirst rest id now title content tags

/-- `updateBlog(id, title, content, tags)` at clock value `now`: look up by
id; if found, mutate in place, sort, save; always return `find`'s result
(the mutated blog, or `none`). -/
def updateBlog (m : BlogManager) (now id : Nat) (title content : String)
    (tags : List String) : Option Blog × BlogManager :=
  match m.getBlog id with
  | some b =>
    let m2 := { m with blogs := sortBlogs (updateFirst m.blogs id now title content tags) }
    (some (b.update now title content tags), m2.saveToLocalStorage)
  | none => (none, m)

/-- `deleteBlog(id)`: `this.blogs = this.blogs.filter((blog) => blog.id !== id)`
followed by an unconditional save. -/
def deleteBlog (m : BlogManager) (id : Nat) : BlogManager :=
  ({ m with blogs := m.blogs.filter (fun b => b.id != id) } : BlogManager).saveToLocalStorage

/-- One step of the `Set` insertions in `getAllTags` (JS `Set` keeps the
first occurrence, preserving insertion order). -/
def insertTag (acc : List String) (t : String) : List String :=
  if t ∈ acc then acc else acc ++ [t]

/-- `getAllTags()`: collect every tag of every blog into a `Set`, then
`Array.from(set).sort()` (default JS sort on strings: lexicographic by code
unit, ascending). -/
def getAllTags (m : BlogManager) : List String :=
  (m.blogs.foldl (fun acc b => b.tags.foldl insertTag acc) []).mergeSort
    (fun a b => decide (a ≤ b))

/-- `filterByTag(tag)`: all blogs for the empty (falsy) tag, otherwise the
blogs whose `tags` array `includes(tag)`. -/
def filterByTag (m : BlogManager) (tag : String) : List Blog :=
  if tag = "" then m.blogs else m.blogs.filter (fun b => b.tags.contains tag)

end BlogManager

/-! ## Operation sequences -/

/-- One mutating call on the collection manager. -/
inductive Op where
  | add (title content : String) (tags : List String)
  | upd (id : Nat) (title content : String) (tags : List String)
  | del (id : Nat)
deriving DecidableEq, Repr

/-- Apply one operation at clock value `now`, keeping only the state. -/
def applyOp (m : BlogManager) (now : Nat) : Op → BlogManager
  | .add t c tg => (m.addBlog now t c tg).2
  | .upd id t c tg => (m.updateBlog now id t c tg).2
  | .del id => m.deleteBlog id

/-- Run a sequence of timestamped operations. -/
def runOps (m : BlogManager) : List (Nat × Op) → BlogManager
  | [] => m
  | (now, op) :: rest => runOps (applyOp m now op) rest

/-! ## Sortedness (claims C1, C7) -/

/-- The collection order the spec demands: `updatedAt` descending (most
recently touched first). -/
def SortedByUpdated (l : List Blog) : Prop :=
  l.Pairwise (fun a b => b.updatedDate ≤ a.updatedDate)

theorem sortBlogs_sorted (l : List Blog) : SortedByUpdated (BlogManager.sortBlogs l) := by
  have h := @List.sorted_mergeSort Blog
    (fun a b : Blog => decide (b.updatedDate ≤ a.updatedDate))
    (by intro a b c h1 h2; simp only [decide_eq_true_eq] at *; omega)
    (by intro a b; simp only [Bool.or_eq_true, decide_eq_true_eq]; omega)
    l
  exact h.imp (by intro a b hh; simpa using hh)

theorem mem_sortBlogs {x : Blog} {l : List Blog} : x ∈ BlogManager.sortBlogs l ↔ x ∈ l :=
  List.mem_mergeSort

theorem sortBlogs_perm (l : List Blog) : List.Perm (BlogManager.sortBlogs l) l :=
  List.mergeSort_perm l _

theorem applyOp_sorted (m : BlogManager) (now : Nat) (op : Op)
    (h : SortedByUpdated m.blogs) : SortedByUpdated (applyOp m now op).blogs := by
  cases op with
  | add t c tg =>
    simpa [applyOp, BlogManager.addBlog, BlogManager.saveToLocalStorage] using
      sortBlogs_sorted (m.blogs ++ [Blog.make now now t c tg])
  | upd id t c tg =>
    cases hg : m.getBlog id with
    | none => simp only [applyOp, BlogManager.updateBlog, hg]; exact h
    | some b =>
      simpa [applyOp, BlogManager.updateBlog, hg, BlogManager.saveToLocalStorage] using
        sortBlogs_sorted (BlogManager.updateFirst m.blogs id now t c tg)
  | del id =>
    simpa [applyOp, BlogManager.deleteBlog, BlogManager.saveToLocalStorage] using
      List.Pairwise.sublist (List.filter_sublist m.blogs) h

/-- C1: for every sequence of add/update/delete operations applied to a
collection manager whose in-memory sequence is sorted by `updatedAt`
descending, the sequence is sorted by `updatedAt` descending after each call
completes (every intermediate state is `runOps` of a prefix, so the
statement over all sorted starting states covers each call). -/
theorem c1_sorted_after_every_call (m : BlogManager) (ops : List (Nat × Op))
    (h : SortedByUpdated m.blogs) : SortedByUpdated (runOps m ops).blogs := by
  induction ops generalizing m with
  | nil => exact h
  | cons p rest ih =>
    exact ih _ (applyOp_sorted _ _ _ h)

theorem c1_witness :
    SortedByUpdated (BlogManager.init none).blogs ∧
    SortedByUpdated (runOps (BlogManager.init none)
      [(5, Op.add "A" "body1" ["x"]), (7, Op.add "B" "body2" ["x", "y"]),
       (3, Op.upd 5 "C" "body3" []), (9, Op.del 7)]).blogs :=
  ⟨List.Pairwise.nil,
   c1_sorted_after_every_call (BlogManager.init none)
     [(5, Op.add "A" "body1" ["x"]), (7, Op.add "B" "body2" ["x", "y"]),
      (3, Op.upd 5 "C" "body3" []), (9, Op.del 7)] List.Pairwise.nil⟩

/-! ## Timestamp invariant (claim C7) -/

/-- All entries satisfy the `createdAt ≤ updatedAt` invariant and carry no
timestamp in the future of clock value `t`. -/
def TimesOk (l : List Blog) (t : Nat) : Prop :=
  ∀ b ∈ l, b.createdDate ≤ b.updatedDate ∧ b.updatedDate ≤ t

/-- The clock values of an operation sequence are nondecreasing, starting no
earlier than `t` (real time does not run backwards). -/
def Chrono (t : Nat) (ops : List (Nat × Op)) : Prop :=
  List.Chain (fun a b => a ≤ b) t (ops.map Prod.fst)

theorem mem_updateFirst {x : Blog} {l : List Blog} {id now : Nat} {t c : String}
    {tg : List String} (h : x ∈ BlogManager.updateFirst l id now t c tg) :
    x ∈ l ∨ ∃ b ∈ l, x = b.update now t c tg := by
  induction l with
  | nil => rw [BlogManager.updateFirst] at h; cases h
  | cons b rest ih =>
    rw [BlogManager.updateFirst] at h
    split_ifs at h with hid
    · rcases List.mem_cons.mp h with h1 | h1
      · exact Or.inr ⟨b, List.mem_cons_self b rest, h1⟩
      · exact Or.inl (List.mem_cons_of_mem b h1)
    · rcases List.mem_cons.mp h with h1 | h1
      · exact Or.inl (h1 ▸ List.mem_cons_self b rest)
      · rcases ih h1 with h2 | ⟨b2, hb2, he⟩
        · exact Or.inl (List.mem_cons_of_mem b h2)
        · exact Or.inr ⟨b2, List.mem_cons_of_mem b hb2, he⟩

theorem applyOp_timesOk (m : BlogManager) (t now : Nat) (op : Op)
    (h : TimesOk m.blogs t) (hle : t ≤ now) : TimesOk (applyOp m now op).blogs now := by
  cases op with
  | add t' c' tg' =>
    intro b hb
    simp only [applyOp, BlogManager.addBlog, BlogManager.saveToLocalStorage] at hb
    rcases List.mem_append.mp (mem_sortBlogs.mp hb) with h1 | h1
    · obtain ⟨hc, hu⟩ := h b h1
      exact ⟨hc, le_trans hu hle⟩
    · simp only [List.mem_singleton] at h1
      subst h1
      exact ⟨le_refl _, le_refl _⟩
  | upd id t' c' tg' =>
    intro b hb
    cases hg : m.getBlog id with
    | none =>
      simp only [applyOp, BlogManager.updateBlog, hg] at hb
      obtain ⟨hc, hu⟩ := h b hb
      exact ⟨hc, le_trans hu hle⟩
    | some b0 =>
      simp only [applyOp, BlogManager.updateBlog, hg, BlogManager.saveToLocalStorage] at hb
      rcases mem_updateFirst (mem_sortBlogs.mp hb) with h1 | ⟨b2, hb2, he⟩
      · obtain ⟨hc, hu⟩ := h b h1
        exact ⟨hc, le_trans hu hle⟩
      · obtain ⟨hc, hu⟩ := h b2 hb2
        subst he
        exact ⟨le_trans (le_trans hc hu) hle, le_refl _⟩
  | del id =>
    intro b hb
    simp only [applyOp, BlogManager.deleteBlog, BlogManager.saveToLocalStorage] at hb
    obtain ⟨hc, hu⟩ := h b (List.mem_of_mem_filter hb)
    exact ⟨hc, le_trans hu hle⟩

/-- C7: construction sets `createdAt = updatedAt = now` and update bumps
only `updatedAt` to the current clock, so under a nondecreasing clock every
entry of every reachable state satisfies `updatedAt ≥ createdAt`. -/
theorem c7_updated_ge_created (m : BlogManager) (t0 : Nat) (ops : List (Nat × Op))
    (h : TimesOk m.blogs t0) (hc : Chrono t0 ops) :
    ∀ b ∈ (runOps m ops).blogs, b.createdDate ≤ b.updatedDate := by
  induction ops generalizing m t0 with
  | nil => exact fun b hb => (h b hb).1
  | cons p rest ih =>
    obtain ⟨now, op⟩ := p
    rw [Chrono, List.map_cons, List.chain_cons] at hc
    exact ih (applyOp m now op) now (applyOp_timesOk m t0 now op h hc.1) hc.2

theorem c7_witness :
    TimesOk (BlogManager.init none).blogs 2 ∧
    Chrono 2 [(5, Op.add "A" "body1" ["x"]), (6, Op.upd 5 "B" "body2" [])] ∧
    ∀ b ∈ (runOps (BlogManager.init none)
      [(5, Op.add "A" "body1" ["x"]), (6, Op.upd 5 "B" "body2" [])]).blogs,
      b.createdDate ≤ b.updatedDate :=
  ⟨fun b hb => absurd hb (by simp [BlogManager.init, BlogManager.loadFromLocalStorage]),
   by constructor <;> simp [Chrono],
   c7_updated_ge_created (BlogManager.init none) 2 _
     (fun b hb => absurd hb (by simp [BlogManager.init, BlogManager.loadFromLocalStorage]))
     (by constructor <;> simp [Chrono])⟩

/-! ## Id assignment (claim C8) -/

/-- The clock values at which the `add` operations of a sequence run. -/
def addTimes : List (Nat × Op) → List Nat
  | [] => []
  | (now, Op.add _ _ _) :: rest => now :: addTimes rest
  | (_, Op.upd _ _ _ _) :: rest => addTimes rest
  | (_, Op.del _) :: rest => addTimes rest

/-- The ids of the blogs returned by the `add` calls of a run, in call
order. -/
def runIds (m : BlogManager) : List (Nat × Op) → List Nat
  | [] => []
  | (now, Op.add t c tg) :: rest =>
    ((m.addBlog now t c tg).1).id :: runIds (applyOp m now (Op.add t c tg)) rest
  | (now, Op.upd id t c tg) :: rest => runIds (applyOp m now (Op.upd id t c tg)) rest
  | (now, Op.del id) :: rest => runIds (applyOp m now (Op.del id)) rest

/-- The clock values of an operation sequence are strictly increasing,
starting strictly after `t`. -/
def StrictChrono (t : Nat) (ops : List (Nat × Op)) : Prop :=
  List.Chain (fun a b => a < b) t (ops.map Prod.fst)

/-- Every id in the collection is at most `t`. -/
def IdsBelow (l : List Blog) (t : Nat) : Prop :=
  ∀ b ∈ l, b.id ≤ t

theorem runIds_eq_addTimes (ops : List (Nat × Op)) (m : BlogManager) :
    runIds m ops = addTimes ops := by
  induction ops generalizing m with
  | nil => rfl
  | cons p rest ih =>
    obtain ⟨now, op⟩ := p
    cases op with
    | add t c tg => simp [runIds, addTimes, ih, BlogManager.addBlog, Blog.make]
    | upd id t c tg => simp [runIds, addTimes, ih]
    | del id => simp [runIds, addTimes, ih]

theorem addTimes_facts (ops : List (Nat × Op)) (t : Nat)
    (hc : StrictChrono t ops) :
    (addTimes ops).Pairwise (fun a b => a < b) ∧ ∀ x ∈ addTimes ops, t < x := by
  induction ops generalizing t with
  | nil => exact ⟨List.Pairwise.nil, by intro x hx; cases hx⟩
  | cons p rest ih =>
    obtain ⟨now, op⟩ := p
    rw [StrictChrono, List.map_cons, List.chain_cons] at hc
    obtain ⟨hp, hrest⟩ := ih now hc.2
    cases op with
    | add t' c' tg' =>
      refine ⟨List.pairwise_cons.mpr ⟨hrest, hp⟩, ?_⟩
      intro x hx
      rcases List.mem_cons.mp hx with h1 | h1
      · exact h1 ▸ hc.1
      · exact lt_trans hc.1 (hrest x h1)
    | upd id t' c' tg' =>
      exact ⟨hp, fun x hx => lt_trans hc.1 (hrest x hx)⟩
    | del id =>
      exact ⟨hp, fun x hx => lt_trans hc.1 (hrest x hx)⟩

/-- C8: each `add` call constructs its blog with `Date.now()` as the id, so
under a strictly increasing clock the assigned ids are exactly the creation
timestamps, strictly increasing (hence pairwise distinct, colliding only if
two creations shared an instant), and disjoint from every id already in the
collection — an id, once used, is never assigned again. -/
theorem c8_fresh_increasing_ids (m : BlogManager) (t0 : Nat) (ops : List (Nat × Op))
    (h0 : IdsBelow m.blogs t0) (hn : (m.blogs.map Blog.id).Nodup)
    (hc : StrictChrono t0 ops) :
    runIds m ops = addTimes ops ∧
    (runIds m ops).Pairwise (fun a b => a < b) ∧
    (m.blogs.map Blog.id ++ runIds m ops).Nodup := by
  obtain ⟨hp, hgt⟩ := addTimes_facts ops t0 hc
  rw [runIds_eq_addTimes]
  refine ⟨rfl, hp, List.Nodup.append hn (hp.imp fun h => ne_of_lt h) ?_⟩
  intro x hx hx2
  obtain ⟨b, hb, hbid⟩ := List.mem_map.mp hx
  have hx0 := h0 b hb
  have hx1 := hgt x hx2
  omega

theorem c8_witness :
    IdsBelow (BlogManager.init none).blogs 2 ∧
    ((BlogManager.init none).blogs.map Blog.id).Nodup ∧
    StrictChrono 2 [(5, Op.add "A" "b1" ["x"]), (6, Op.del 5), (9, Op.add "B" "b2" [])] ∧
    runIds (BlogManager.init none)
        [(5, Op.add "A" "b1" ["x"]), (6, Op.del 5), (9, Op.add "B" "b2" [])] =
      addTimes [(5, Op.add "A" "b1" ["x"]), (6, Op.del 5), (9, Op.add "B" "b2" [])] :=
  ⟨fun b hb => absurd hb (by simp [BlogManager.init, BlogManager.loadFromLocalStorage]),
   by simp [BlogManager.init, BlogManager.loadFromLocalStorage],
   by simp [StrictChrono],
   (c8_fresh_increasing_ids (BlogManager.init none) 2 _
     (fun b hb => absurd hb (by simp [BlogManager.init, BlogManager.loadFromLocalStorage]))
     (by simp [BlogManager.init, BlogManager.loadFromLocalStorage])
     (by simp [StrictChrono])).1⟩

/-! ## Persistence round-trip (claim C2) -/

theorem restore_persist_blog (b : Blog) (h1 : b.createdDate < msLimit)
    (h2 : b.updatedDate < msLimit) : restoreBlog (persistBlog b) = b := by
  simp only [persistBlog, restoreBlog, parseDate, parseIso_isoOfMs b.createdDate h1,
    parseIso_isoOfMs b.updatedDate h2, Option.getD_some]

theorem map_restore_persist (l : List Blog)
    (h : ∀ b ∈ l, b.createdDate < msLimit ∧ b.updatedDate < msLimit) :
    l.map (restoreBlog ∘ persistBlog) = l := by
  induction l with
  | nil => rfl
  | cons b rest ih =>
    obtain ⟨h1, h2⟩ := h b (List.mem_cons_self b rest)
    rw [List.map_cons, Function.comp_apply, restore_persist_blog b h1 h2,
      ih (fun x hx => h x (List.mem_cons_of_mem b hx))]

/-- C2: writing the collection to the store (`saveToLocalStorage`) and
constructing a manager against that store (`loadFromLocalStorage`) yields an
equal entry sequence — same order, equal id/title/content/tags, and the
timestamps recovered exactly (millisecond precision, hence at least second
precision).  The hypothesis keeps every timestamp below year 10000, the
range of the fixed-width ISO format; `Date.now()` values lie far below. -/
theorem c2_persist_restore_roundtrip (m : BlogManager)
    (h : ∀ b ∈ m.blogs, b.createdDate < msLimit ∧ b.updatedDate < msLimit) :
    (BlogManager.init (m.saveToLocalStorage).store).blogs = m.blogs := by
  simp only [BlogManager.saveToLocalStorage, BlogManager.init,
    BlogManager.loadFromLocalStorage, List.map_map]
  exact map_restore_persist m.blogs h

theorem c2_witness :
    (∀ b ∈ (BlogManager.mk [Blog.mk 1700000000000 "A" "body" ["x", "y"] 1700000000000 1700000001234] none).blogs,
      b.createdDate < msLimit ∧ b.updatedDate < msLimit) ∧
    (BlogManager.init ((BlogManager.mk [Blog.mk 1700000000000 "A" "body" ["x", "y"] 1700000000000 1700000001234] none).saveToLocalStorage).store).blogs =
      (BlogManager.mk [Blog.mk 1700000000000 "A" "body" ["x", "y"] 1700000000000 1700000001234] none).blogs :=
  ⟨by decide,
   c2_persist_restore_roundtrip
     (BlogManager.mk [Blog.mk 1700000000000 "A" "body" ["x", "y"] 1700000000000 1700000001234] none)
     (by decide)⟩

/-! ## Tag filtering (claim C3) -/

/-- C3: `filterByTag ""` (the falsy, "all" case) returns the full collection
in its current order; for a non-empty tag it returns exactly the entries
whose tag sequence contains the tag (exact string match), as a subsequence
of the collection (current order preserved). -/
theorem c3_filterByTag_spec (m : BlogManager) :
    m.filterByTag "" = m.blogs ∧
    ∀ tag : String, tag ≠ "" →
      ((m.filterByTag tag).Sublist m.blogs ∧
        ∀ b : Blog, b ∈ m.filterByTag tag ↔ b ∈ m.blogs ∧ tag ∈ b.tags) := by
  refine ⟨by rw [BlogManager.filterByTag, if_pos rfl], ?_⟩
  intro tag htag
  rw [BlogManager.filterByTag, if_neg htag]
  refine ⟨List.filter_sublist _, ?_⟩
  intro b
  simp [List.mem_filter]

theorem c3_witness :
    (BlogManager.mk [Blog.mk 2 "B" "b2" ["x", "y"] 2 2, Blog.mk 1 "A" "b1" ["x"] 1 1] none).filterByTag "" =
      (BlogManager.mk [Blog.mk 2 "B" "b2" ["x", "y"] 2 2, Blog.mk 1 "A" "b1" ["x"] 1 1] none).blogs ∧
    ((BlogManager.mk [Blog.mk 2 "B" "b2" ["x", "y"] 2 2, Blog.mk 1 "A" "b1" ["x"] 1 1] none).filterByTag "y").Sublist
      (BlogManager.mk [Blog.mk 2 "B" "b2" ["x", "y"] 2 2, Blog.mk 1 "A" "b1" ["x"] 1 1] none).blogs :=
  ⟨(c3_filterByTag_spec _).1,
   ((c3_filterByTag_spec
     (BlogManager.mk [Blog.mk 2 "B" "b2" ["x", "y"] 2 2, Blog.mk 1 "A" "b1" ["x"] 1 1] none)).2
     "y" (by decide)).1⟩

/-! ## Tag aggregation (claim C4) -/

theorem mem_insertTag (acc : List String) (t x : String) :
    x ∈ BlogManager.insertTag acc t ↔ x ∈ acc ∨ x = t := by
  rw [BlogManager.insertTag]
  split_ifs with h
  · constructor
    · exact Or.inl
    · rintro (hx | rfl)
      · exact hx
      · exact h
  · simp [List.mem_append]

theorem nodup_insertTag (acc : List String) (t : String) (h : acc.Nodup) :
    (BlogManager.insertTag acc t).Nodup := by
  rw [BlogManager.insertTag]
  split_ifs with ht
  · exact h
  · refine List.Nodup.append h (List.nodup_singleton t) ?_
    intro x hx hx2
    rw [List.mem_singleton] at hx2
    subst hx2
    exact ht hx

theorem mem_foldl_insertTag (ts : List String) (acc : List String) (x : String) :
    x ∈ ts.foldl BlogManager.insertTag acc ↔ x ∈ acc ∨ x ∈ ts := by
  induction ts generalizing acc with
  | nil => simp
  | cons t ts ih =>
    rw [List.foldl_cons, ih, mem_insertTag]
    simp only [List.mem_cons]
    tauto

theorem nodup_foldl_insertTag (ts : List String) (acc : List String) (h : acc.Nodup) :
    (ts.foldl BlogManager.insertTag acc).Nodup := by
  induction ts generalizing acc with
  | nil => exact h
  | cons t ts ih => exact ih _ (nodup_insertTag acc t h)

theorem mem_tagsFold (blogs : List Blog) (acc : List String) (x : String) :
    x ∈ blogs.foldl (fun acc b => b.tags.foldl BlogManager.insertTag acc) acc ↔
      x ∈ acc ∨ ∃ b ∈ blogs, x ∈ b.tags := by
  induction blogs generalizing acc with
  | nil => simp
  | cons b bs ih =>
    rw [List.foldl_cons, ih, mem_foldl_insertTag]
    simp only [List.mem_cons, exists_eq_or_imp]
    tauto

theorem nodup_tagsFold (blogs : List Blog) (acc : List String) (h : acc.Nodup) :
    (blogs.foldl (fun acc b => b.tags.foldl BlogManager.insertTag acc) acc).Nodup := by
  induction blogs generalizing acc with
  | nil => exact h
  | cons b bs ih => exact ih _ (nodup_foldl_insertTag b.tags acc h)

/-- C4: `getAllTags` returns the union of all tags over all entries,
deduplicated (strictly sorted means no duplicates), sorted lexicographically
ascending — also when multiple entries share overlapping tags, since each
distinct tag appears exactly once. -/
theorem c4_allTags (m : BlogManager) :
    (m.getAllTags).Pairwise (fun a b : String => a < b) ∧
    ∀ t : String, t ∈ m.getAllTags ↔ ∃ b ∈ m.blogs, t ∈ b.tags := by
  constructor
  · have hsorted := @List.sorted_mergeSort String
      (fun a b : String => decide (a ≤ b))
      (by intro a b c h1 h2; simp only [decide_eq_true_eq] at *; exact le_trans h1 h2)
      (by intro a b; simp only [Bool.or_eq_true, decide_eq_true_eq]; exact le_total a b)
      (m.blogs.foldl (fun acc b => b.tags.foldl BlogManager.insertTag acc) [])
    have hnd : ((m.blogs.foldl (fun acc b => b.tags.foldl BlogManager.insertTag acc) []).mergeSort
        (fun a b : String => decide (a ≤ b))).Nodup :=
      (List.mergeSort_perm _ _).nodup_iff.mpr (nodup_tagsFold m.blogs [] List.nodup_nil)
    have hand := (hsorted.imp (fun h => of_decide_eq_true h)).and hnd
    exact hand.imp (fun h => lt_of_le_of_ne h.1 h.2)
  · intro t
    rw [BlogManager.getAllTags, List.mem_mergeSort, mem_tagsFold]
    simp

/-! ## Not-found behaviour and first-match lookups (claims C5, C6, C9, C10) -/

theorem find_first_blog (l₁ : List Blog) (b : Blog) (l₂ : List Blog) (id : Nat)
    (h1 : ∀ a ∈ l₁, a.id ≠ id) (h2 : b.id = id) :
    (l₁ ++ b :: l₂).find? (fun x => x.id == id) = some b := by
  induction l₁ with
  | nil =>
    rw [List.nil_append]
    exact List.find?_cons_of_pos _ (by simp [h2])
  | cons a l ih =>
    rw [List.cons_append,
      List.find?_cons_of_neg _ (by simp [h1 a (List.mem_cons_self a l)])]
    exact ih (fun x hx => h1 x (List.mem_cons_of_mem a hx))

theorem updateFirst_append (l₁ : List Blog) (b : Blog) (l₂ : List Blog) (id now : Nat)
    (t c : String) (tg : List String) (h1 : ∀ a ∈ l₁, a.id ≠ id) (h2 : b.id = id) :
    BlogManager.updateFirst (l₁ ++ b :: l₂) id now t c tg =
      l₁ ++ b.update now t c tg :: l₂ := by
  induction l₁ with
  | nil =>
    rw [List.nil_append, BlogManager.updateFirst, if_pos (by simp [h2])]
    rfl
  | cons a l ih =>
    rw [List.cons_append, BlogManager.updateFirst,
      if_neg (by simp [h1 a (List.mem_cons_self a l)]),
      ih (fun x hx => h1 x (List.mem_cons_of_mem a hx)), List.cons_append]

/-- C5: updating an id that is in no entry of the collection returns the
not-found result (`none`, JS `undefined`) and leaves the whole manager state
— the entry sequence and the persistent store — unchanged. -/
theorem c5_update_unknown_id (m : BlogManager) (now id : Nat) (t c : String)
    (tg : List String) (h : ∀ b ∈ m.blogs, b.id ≠ id) :
    m.updateBlog now id t c tg = (none, m) := by
  have hg : m.getBlog id = none := by
    rw [BlogManager.getBlog]
    exact List.find?_eq_none.mpr (fun b hb => by simp [h b hb])
  rw [BlogManager.updateBlog, hg]

theorem c5_witness :
    (∀ b ∈ (BlogManager.mk [Blog.mk 1 "A" "a" ["x"] 1 1] (some [])).blogs, b.id ≠ 2) ∧
    (BlogManager.mk [Blog.mk 1 "A" "a" ["x"] 1 1] (some [])).updateBlog 9 2 "B" "b" [] =
      (none, BlogManager.mk [Blog.mk 1 "A" "a" ["x"] 1 1] (some [])) :=
  ⟨by decide,
   c5_update_unknown_id (BlogManager.mk [Blog.mk 1 "A" "a" ["x"] 1 1] (some [])) 9 2 "B" "b" []
     (by decide)⟩

/-- C6: deleting an id that is in no entry of the collection leaves the
entry sequence unchanged and raises no error (the operation is a total
no-op on the sequence), while still writing the (unchanged) serialized
state to the store unconditionally. -/
theorem c6_delete_unknown_id (m : BlogManager) (id : Nat)
    (h : ∀ b ∈ m.blogs, b.id ≠ id) :
    (m.deleteBlog id).blogs = m.blogs ∧
    (m.deleteBlog id).store = some (m.blogs.map persistBlog) := by
  have hf : m.blogs.filter (fun b => b.id != id) = m.blogs :=
    List.filter_eq_self.mpr (fun b hb => by simp [h b hb])
  constructor
  · simp [BlogManager.deleteBlog, BlogManager.saveToLocalStorage, hf]
  · simp [BlogManager.deleteBlog, BlogManager.saveToLocalStorage, hf]

theorem c6_witness :
    (∀ b ∈ (BlogManager.mk [Blog.mk 1 "A" "a" ["x"] 1 1] none).blogs, b.id ≠ 2) ∧
    ((BlogManager.mk [Blog.mk 1 "A" "a" ["x"] 1 1] none).deleteBlog 2).blogs =
      (BlogManager.mk [Blog.mk 1 "A" "a" ["x"] 1 1] none).blogs ∧
    ((BlogManager.mk [Blog.mk 1 "A" "a" ["x"] 1 1] none).deleteBlog 2).store =
      some ((BlogManager.mk [Blog.mk 1 "A" "a" ["x"] 1 1] none).blogs.map persistBlog) :=
  ⟨by decide,
   c6_delete_unknown_id (BlogManager.mk [Blog.mk 1 "A" "a" ["x"] 1 1] none) 2 (by decide)⟩

/-- C9: updating an entry present in the collection (the first entry with
the given id) returns that entry with exactly title, content and tags
replaced and `updatedAt` bumped to the clock value, while its id and
`createdAt` are unchanged; the resulting sequence is a permutation (the
re-sort) of the old sequence with only that entry replaced, so every other
entry is unchanged. -/
theorem c9_update_frame (m : BlogManager) (now id : Nat) (t c : String) (tg : List String)
    (l₁ : List Blog) (b : Blog) (l₂ : List Blog)
    (hdec : m.blogs = l₁ ++ b :: l₂) (h1 : ∀ a ∈ l₁, a.id ≠ id) (h2 : b.id = id) :
    (m.updateBlog now id t c tg).1 = some (b.update now t c tg) ∧
    List.Perm ((m.updateBlog now id t c tg).2).blogs (l₁ ++ b.update now t c tg :: l₂) ∧
    (b.update now t c tg).id = b.id ∧
    (b.update now t c tg).createdDate = b.createdDate ∧
    (b.update now t c tg).title = t ∧
    (b.update now t c tg).content = c ∧
    (b.update now t c tg).tags = tg ∧
    (b.update now t c tg).updatedDate = now := by
  have hget : m.getBlog id = some b := by
    rw [BlogManager.getBlog, hdec]
    exact find_first_blog l₁ b l₂ id h1 h2
  refine ⟨by rw [BlogManager.updateBlog, hget], ?_, rfl, rfl, rfl, rfl, rfl, rfl⟩
  rw [BlogManager.updateBlog, hget]
  simp only [BlogManager.saveToLocalStorage]
  rw [hdec, updateFirst_append l₁ b l₂ id now t c tg h1 h2]
  exact sortBlogs_perm _

theorem c9_witness :
    ((BlogManager.mk [Blog.mk 1 "A" "a" ["x"] 1 1, Blog.mk 2 "B" "b" ["y"] 2 2] none).updateBlog 9 2 "C" "c" ["z"]).1 =
      some ((Blog.mk 2 "B" "b" ["y"] 2 2).update 9 "C" "c" ["z"]) ∧
    List.Perm (((BlogManager.mk [Blog.mk 1 "A" "a" ["x"] 1 1, Blog.mk 2 "B" "b" ["y"] 2 2] none).updateBlog 9 2 "C" "c" ["z"]).2).blogs
      ([Blog.mk 1 "A" "a" ["x"] 1 1] ++ (Blog.mk 2 "B" "b" ["y"] 2 2).update 9 "C" "c" ["z"] :: []) :=
  ⟨(c9_update_frame (BlogManager.mk [Blog.mk 1 "A" "a" ["x"] 1 1, Blog.mk 2 "B" "b" ["y"] 2 2] none)
      9 2 "C" "c" ["z"] [Blog.mk 1 "A" "a" ["x"] 1 1] (Blog.mk 2 "B" "b" ["y"] 2 2) []
      rfl (by decide) rfl).1,
   (c9_update_frame (BlogManager.mk [Blog.mk 1 "A" "a" ["x"] 1 1, Blog.mk 2 "B" "b" ["y"] 2 2] none)
      9 2 "C" "c" ["z"] [Blog.mk 1 "A" "a" ["x"] 1 1] (Blog.mk 2 "B" "b" ["y"] 2 2) []
      rfl (by decide) rfl).2.1⟩

/-- C10: `deleteBlog` keeps exactly the entries whose id differs from the
argument — with duplicate ids, every duplicate is removed in the one call —
while `getBlog` returns only the first entry (in current order) with the
given id. -/
theorem c10_delete_all_matches_get_first (m : BlogManager) (id : Nat)
    (l₁ : List Blog) (b : Blog) (l₂ : List Blog)
    (hdec : m.blogs = l₁ ++ b :: l₂) (h1 : ∀ a ∈ l₁, a.id ≠ id) (h2 : b.id = id) :
    (∀ x ∈ (m.deleteBlog id).blogs, x.id ≠ id) ∧
    (∀ x ∈ m.blogs, x.id ≠ id → x ∈ (m.deleteBlog id).blogs) ∧
    m.getBlog id = some b := by
  refine ⟨?_, ?_, ?_⟩
  · intro x hx
    simp only [BlogManager.deleteBlog, BlogManager.saveToLocalStorage] at hx
    have hmem := List.of_mem_filter hx
    simpa using hmem
  · intro x hx hne
    simp only [BlogManager.deleteBlog, BlogManager.saveToLocalStorage]
    exact List.mem_filter.mpr ⟨hx, by simp [hne]⟩
  · rw [BlogManager.getBlog, hdec]
    exact find_first_blog l₁ b l₂ id h1 h2

theorem c10_witness :
    (∀ x ∈ ((BlogManager.mk [Blog.mk 7 "A" "a" [] 1 1, Blog.mk 7 "B" "b" [] 2 2] none).deleteBlog 7).blogs,
      x.id ≠ 7) ∧
    (BlogManager.mk [Blog.mk 7 "A" "a" [] 1 1, Blog.mk 7 "B" "b" [] 2 2] none).getBlog 7 =
      some (Blog.mk 7 "A" "a" [] 1 1) :=
  ⟨(c10_delete_all_matches_get_first
      (BlogManager.mk [Blog.mk 7 "A" "a" [] 1 1, Blog.mk 7 "B" "b" [] 2 2] none) 7
      [] (Blog.mk 7 "A" "a" [] 1 1) [Blog.mk 7 "B" "b" [] 2 2] rfl (by decide) rfl).1,
   (c10_delete_all_matches_get_first
      (BlogManager.mk [Blog.mk 7 "A" "a" [] 1 1, Blog.mk 7 "B" "b" [] 2 2] none) 7
      [] (Blog.mk 7 "A" "a" [] 1 1) [Blog.mk 7 "B" "b" [] 2 2] rfl (by decide) rfl).2.2⟩
